import Mathlib

/-!
A verification development for the spox/steelix graph-construction library.

The Python sources under `src/steelix/graph.py`, `src/steelix/function.py`,
`src/steelix/converter.py` and `src/spox/_internal_op.py` are shallowly
embedded below: pure functions become Lean functions, the mutable build
cache becomes explicit state passing, Python `set` becomes `Finset`,
Python `dict` (which preserves insertion order) becomes an association
list, and fallible code returns `Option`/`Except`.

Python objects that only matter by identity (nodes as dictionary keys)
are represented by natural-number identifiers.
-/

namespace Spox

/-- A numpy array, reduced to the data the embedded code inspects:
its dtype name, its shape, and its flat contents. -/
structure NDArray where
  dtype : String
  shape : List Nat
  data : List Int
deriving DecidableEq, Repr

/-- One dimension of a tensor shape: a concrete size or a named symbolic
dimension (`Union[int, str]` in the source); a missing (`None`) dimension
is `Option.none` at the use site. -/
inductive Dim where
  | fixed (n : Nat)
  | symbolic (s : String)
deriving DecidableEq, Repr

/-- `SimpleShape = Optional[Tuple[Union[int, str, None], ...]]` from
`spox/_shape.py`. -/
def SimpleShape : Type := Option (List (Option Dim))

instance : DecidableEq SimpleShape := by
  unfold SimpleShape
  infer_instance

/-- The type system (`steelix/type_system.py` / `spox/_type_system.py`):
a tensor with an element dtype and a shape, or a recursive
sequence/optional wrapper, or an entirely unknown type. -/
inductive Ty where
  | tensor (dtype : String) (shape : SimpleShape)
  | sequence (elem : Ty)
  | optionalTy (elem : Ty)
  | unknownTy
deriving DecidableEq

/-- A `Var` (`Arrow` in the steelix-era files): a value slot with an
optional static type, an optional propagated (constant-folded) value, and
the operation that produced it.  The producer is recorded as the
operator's name together with the list of input `Var`s of the producing
node and the index of this output among the node's outputs; a `Var` with
no producer (`none`) is not attached to any node. -/
inductive Var where
  | mk (producerOp : Option String) (producerInputs : List Var)
      (outputIndex : Nat) (vtype : Option Ty) (value : Option NDArray)

/-- The static type of a `Var` (`Arrow.type`). -/
def Var.type : Var → Option Ty
  | .mk _ _ _ t _ => t

/-- The propagated value of a `Var` (`Arrow._value`). -/
def Var.value : Var → Option NDArray
  | .mk _ _ _ _ v => v

/-- The operator name of the producing node of a `Var`. -/
def Var.producerOp : Var → Option String
  | .mk p _ _ _ _ => p

/-- The inputs of the producing node of a `Var`. -/
def Var.producerInputs : Var → List Var
  | .mk _ ins _ _ _ => ins

/-- The index of a `Var` among its producing node's outputs. -/
def Var.outputIndex : Var → Nat
  | .mk _ _ i _ _ => i

/-- In-place assignment of `.type` and `._value` on a `Var`
(`y.type = typ; y._value = x._value` in the source), modelled
functionally as rebuilding the `Var` with the two fields replaced. -/
def Var.setTypeValue : Var → Option Ty → Option NDArray → Var
  | .mk p ins i _ _, t, v => .mk p ins i t v

/-- A serialized node (`onnx.NodeProto`), reduced to the fields the
embedded code constructs: operator name, input names, output names,
node name, and doc string. -/
structure NodeProto where
  opType : String
  inputNames : List String
  outputNames : List String
  nodeName : Option String
  docString : Option String
deriving DecidableEq, Repr

/-- A serialized function definition (`onnx.FunctionProto`), reduced to
its operator identifier (domain, name) and its body. -/
structure FunctionProto where
  domain : String
  fname : String
  body : List NodeProto
deriving DecidableEq, Repr

/-- The result of building a `Graph` (`steelix/_build.py`'s `BuildResult`,
not under `src/`; its fields are those read by `graph.py`): the ordered
mapping from each node (by identifier) to its lowered instructions, the
initializers, arguments and results, the aggregated opset requirements,
and the function definitions encountered (by identifier). -/
structure BuildResult where
  nodes : List (Nat × List NodeProto)
  initializers : List (Nat × NDArray)
  arguments : List Nat
  results : List Nat
  opset_req : Finset (String × Nat)
  functions : List Nat

/-- `steelix/graph.py`'s `Graph`: a frozen dataclass of results, optional
name, doc string, arguments and extra opset requirements, plus the
build-result cache cell (`_build.Cached`, modelled as an `Option`). -/
structure Graph where
  results : List (String × Var)
  name : Option String := none
  doc_string : Option String := none
  arguments : Option (List Var) := none
  extra_opset_req : Option (Finset (String × Nat)) := none
  build_result : Option BuildResult := none

/-- `Graph.with_name`: `replace(self, _name=name)`. -/
def Graph.with_name (g : Graph) (n : String) : Graph :=
  { g with name := some n }

/-- `Graph.with_doc`: `replace(self, _doc_string=doc_string)`. -/
def Graph.with_doc (g : Graph) (d : String) : Graph :=
  { g with doc_string := some d }

/-- `Graph.with_arguments`: `replace(self, _arguments=args)`. -/
def Graph.with_arguments (g : Graph) (args : List Var) : Graph :=
  { g with arguments := some args }

/-- `Graph.with_opset`: unions the requested requirements with any
existing extras and stores the result
(`set(args) | self._extra_opset_req`). -/
def Graph.with_opset (g : Graph) (args : Finset (String × Nat)) : Graph :=
  { g with extra_opset_req := some (args ∪ g.extra_opset_req.getD ∅) }

/-- `Graph._get_build_result`: if the cache cell is empty, run the
builder and fill it; return the cached value.  The builder itself
(`_build.Builder(self).build_main()`, not under `src/`) is passed in as
a function; the mutation of the cache cell is modelled by returning the
updated `Graph` alongside the result. -/
def Graph.get_build_result (build : Graph → BuildResult) (g : Graph) :
    BuildResult × Graph :=
  match g.build_result with
  | some r => (r, g)
  | none =>
      let r := build g
      (r, { g with build_result := some r })

/-- `Graph._get_opset_req`: the build result's requirements together
with the extras requested on the Graph itself. -/
def Graph.get_opset_req (build : Graph → BuildResult) (g : Graph) :
    Finset (String × Nat) :=
  (Graph.get_build_result build g).1.opset_req ∪ g.extra_opset_req.getD ∅

/-- Modelled from the spec: `max_opset_policy` (from `steelix/schemas.py`,
not under `src/`) — "the chosen target version for a domain is the
maximum of all per-Node floor requirements seen during the build",
"one version per domain, computed as max of required versions".  For a
domain with no requirement the returned dictionary has no entry (`⊥`). -/
def max_opset_policy (reqs : Finset (String × Nat)) (domain : String) :
    WithBot Nat :=
  ((reqs.filter fun p => p.1 = domain).image Prod.snd).max

/-- `Graph.get_opsets`: `max_opset_policy(self._get_opset_req())`. -/
def Graph.get_opsets (build : Graph → BuildResult) (g : Graph) :
    String → WithBot Nat :=
  max_opset_policy (Graph.get_opset_req build g)

/-- `Graph.get_adapted_nodes`, parameterized by `adapt_best_effort`
(from `steelix/_adapt.py`, not under `src/`): for each node of the build
result, replace its instructions by the adapted ones when adaptation
returns a result, and keep the original instructions when it returns
none. -/
def get_adapted_nodes
    (adapt : Nat → List NodeProto → (String → WithBot Nat) → Option (List NodeProto))
    (opsets : String → WithBot Nat)
    (nodes : List (Nat × List NodeProto)) : List (Nat × List NodeProto) :=
  nodes.map fun p => (p.1, (adapt p.1 p.2 opsets).getD p.2)

/-- The instruction sequence of `Graph.to_onnx`:
`itertools.chain.from_iterable(self.get_adapted_nodes().values())`. -/
def Graph.node_protos
    (adapt : Nat → List NodeProto → (String → WithBot Nat) → Option (List NodeProto))
    (build : Graph → BuildResult) (g : Graph) : List NodeProto :=
  (get_adapted_nodes adapt (Graph.get_opsets build g)
    (Graph.get_build_result build g).1.nodes).map Prod.snd |>.flatten

/-! ## Internal operators (`spox/_internal_op.py`) -/

/-- `_InternalNode.opset_req`: internal nodes by default advertise no
opset requirement (`return set()`). -/
def internalNodeOpsetReq : Finset (String × Nat) := ∅

/-- `_Introduce.opset_req`: `{("", 1)}`. -/
def introduceOpsetReq : Finset (String × Nat) := {("", 1)}

/-- `_Constant.opset_req`: `{("", self.version)}` when a version was
given, else the empty set. -/
def constantOpsetReq (version : Option Nat) : Finset (String × Nat) :=
  match version with
  | some v => {("", v)}
  | none => ∅

/-- The output `Var`s of an `_Introduce` node over `args`
(`_Introduce(None, _Introduce.Inputs(args), out_variadic=len(args))`):
`out_variadic = len(args)` fresh outputs, the i-th typed by
`infer_output_types` as the type of the i-th input (absent when the
input's type is absent), with no propagated value (`_Introduce` does not
define `propagate_values`). -/
def intros (args : List Var) : List Var :=
  (List.range args.length).map fun i =>
    Var.mk (some "Introduce") args i (args[i]?.bind Var.type) none

/-- `intro`: `intros(*args)[-1]` — the last introduced output;
Python indexing raises on an empty tuple, hence `Option`. -/
def introLast (args : List Var) : Option Var :=
  (intros args).getLast?

/-- `unsafe_cast(x, typ)`: `y = intro(x); y.type = typ;
y._value = x._value; return y`. -/
def force_cast (x : Var) (typ : Ty) : Option Var :=
  (introLast [x]).map fun y => y.setTypeValue (some typ) x.value

/-- `unsafe_reshape(x, shape)`:
`unsafe_cast(x, Tensor(x.unwrap_tensor().dtype, shape))`;
`unwrap_tensor` raises when the input's type is not a tensor, hence
`Option`. -/
def force_reshape (x : Var) (shape : SimpleShape) : Option Var :=
  match x.type with
  | some (.tensor dtype _) => force_cast x (.tensor dtype shape)
  | _ => none

/-- `_Introduce.to_onnx`: after asserting that the input and output
counts agree (`none` models the assertion failure), emit one `Identity`
instruction per input, the i-th renaming the i-th input's resolved name
to the i-th output's resolved name, named `{node}_id{i}` when the node
has a name in scope. -/
def introduceToOnnx (scopeVar : Var → String) (nodeName : Option String)
    (docString : Option String) (inputs outputs : List Var) :
    Option (List NodeProto) :=
  if inputs.length = outputs.length then
    some ((List.range inputs.length).map fun i =>
      { opType := "Identity"
        inputNames := (inputs[i]?.map scopeVar).toList
        outputNames := (outputs[i]?.map scopeVar).toList
        nodeName := nodeName.map fun nm => nm ++ "_id" ++ toString i
        docString := docString })
  else
    none

/-! ## Arguments (`steelix/graph.py`'s `arguments_dict`) -/

/-- The output `Var` of an `Argument`/`_Initializer` node.  Modelled
from the spec for the part of `steelix/internal_op.py` that is not under
`src/`: per §4.2 the argument node's output carries the Type given as
its `type` attribute (`infer_output_types` returns the attribute's
value) and has no producer inputs; `function.py` (under `src/`) routes
possibly-absent input types through `arguments_dict`, so an absent
attribute yields an output `Var` with no type. -/
def mkArgumentVar (ty : Option Ty) : Var :=
  Var.mk (some "Argument") [] 0 ty none

/-- `Tensor.like_array(arr)`: a tensor type with the array's dtype and
its concrete shape. -/
def tensorLikeArray (arr : NDArray) : Ty :=
  .tensor arr.dtype (some (arr.shape.map fun n => some (.fixed n)))

/-- The information accepted for one keyword of `arguments_dict`:
`Optional[Union[Type, numpy.ndarray]]`. -/
def ArgInfo : Type := Option (Ty ⊕ NDArray)

/-- `arguments_dict(**kwargs)`: for each name, `None` or a `Type` makes
an `Argument` with that (possibly absent) type attribute and no default,
and an array makes an `Argument` typed like the array with the array as
default; every branch returns the new argument's output `Var` — no
branch raises (the `TypeError` branch is for inputs outside
`Optional[Union[Type, ndarray]]`, unrepresentable here). -/
def arguments_dict (kwargs : List (String × ArgInfo)) : List (String × Var) :=
  kwargs.map fun p =>
    match p.2 with
    | none => (p.1, mkArgumentVar none)
    | some (.inl t) => (p.1, mkArgumentVar (some t))
    | some (.inr arr) => (p.1, mkArgumentVar (some (tensorLikeArray arr)))

/-! ## Function deduplication (`Graph.to_onnx_model`) -/

/-- The operator identifier of a serialized function. -/
def FunctionProto.key (p : FunctionProto) : String × String :=
  (p.domain, p.fname)

/-- One step of the `function_protos` loop in `Graph.to_onnx_model`:
if the identifier is already bound to a different proto, raise
(`RuntimeError`); otherwise (re)bind it — Python dictionary assignment
keeps the original insertion position, so an equal rebinding leaves the
association list unchanged and a fresh identifier is appended. -/
def addFunctionProto (acc : List ((String × String) × FunctionProto))
    (p : FunctionProto) :
    Except String (List ((String × String) × FunctionProto)) :=
  match acc.find? fun e => e.1 = p.key with
  | some e =>
      if p ≠ e.2 then
        .error "Built dependency function has two different definitions."
      else
        .ok acc
  | none => .ok (acc ++ [(p.key, p)])

/-- The `function_protos` collection loop of `Graph.to_onnx_model`:
`fun.to_onnx_function()` results that are `None` are skipped, the rest
are folded through `addFunctionProto`. -/
def collectFunctionProtos (acc : List ((String × String) × FunctionProto)) :
    List (Option FunctionProto) →
    Except String (List ((String × String) × FunctionProto))
  | [] => .ok acc
  | none :: rest => collectFunctionProtos acc rest
  | some p :: rest =>
      match addFunctionProto acc p with
      | .ok acc' => collectFunctionProtos acc' rest
      | .error e => .error e

/-! ## Function nodes (`steelix/function.py`) -/

/-- A `Function` node, reduced to the data its `opset_req` and
`update_metadata` (under `src/`) read: the base `Node.opset_req`
contribution retrieved through `Node.opset_req.fget(self)` (the base
class is not under `src/`; modelled from the spec as the node's own
operator floor, kept abstract as a field), and its internal constructor
graph's build result — its opset requirements and its reusable
functions.  The nesting of functions inside functions makes this
inductive. -/
inductive FunctionNode where
  | mk (nodeOpsetReq : Finset (String × Nat))
      (funcBuildOpsetReq : Finset (String × Nat))
      (funcBuildFunctions : List FunctionNode)

/-- The base `Node.opset_req` contribution of a `Function`. -/
def FunctionNode.nodeOpsetReq : FunctionNode → Finset (String × Nat)
  | .mk r _ _ => r

/-- The opset requirements of the function's internal constructor
graph's build (`self.func_graph._get_build_result().opset_req`). -/
def FunctionNode.funcBuildOpsetReq : FunctionNode → Finset (String × Nat)
  | .mk _ r _ => r

/-- The reusable functions of the function's internal constructor
graph's build (`self.func_graph._get_build_result().functions`). -/
def FunctionNode.funcBuildFunctions : FunctionNode → List FunctionNode
  | .mk _ _ fs => fs

/-- `Function.opset_req`: the base node requirement unioned with the
internal constructor graph's build requirements. -/
def FunctionNode.opset_req (f : FunctionNode) : Finset (String × Nat) :=
  f.nodeOpsetReq ∪ f.funcBuildOpsetReq

/-- The mutable accumulation threaded through `update_metadata` during a
build: the running union of opset requirements and the running list of
`Function` instances encountered. -/
structure BuildState where
  opset_req : Finset (String × Nat)
  functions : List FunctionNode

/-- `Function.update_metadata`: the base-class call contributes the
node's own `opset_req` to the running union (modelled from the spec:
"a node contributes its own minimum operator-set requirement"; the base
class is not under `src/`), then `functions.append(self)` and
`functions.extend(self.func_graph._get_build_result().functions)`. -/
def FunctionNode.update_metadata (f : FunctionNode) (st : BuildState) :
    BuildState :=
  { opset_req := st.opset_req ∪ f.opset_req
    functions := st.functions ++ f :: f.funcBuildFunctions }

/-! ## Opset aggregation over internal nodes (for claim C10) -/

/-- The internal operator kinds of `spox/_internal_op.py`, as far as
their `opset_req` behaviour goes. -/
inductive InternalOp where
  | argument
  | initializerOp
  | constant (version : Option Nat)
  | introduce
deriving DecidableEq, Repr

/-- The `opset_req` of each internal operator kind: `Argument` and
`_Initializer` inherit the `_InternalNode` default (empty), `_Constant`
requires its tagged version when present, and `_Introduce` requires
`{("", 1)}`. -/
def InternalOp.opset_req : InternalOp → Finset (String × Nat)
  | .argument => internalNodeOpsetReq
  | .initializerOp => internalNodeOpsetReq
  | .constant v => constantOpsetReq v
  | .introduce => introduceOpsetReq

/-- Modelled from the spec: the builder's aggregation of opset
requirements (`steelix/_build.py` is not under `src/`) — "the running
union of opset requirements" over every node of the build, per §4.3. -/
def buildOpsetReq (nodes : List InternalOp) : Finset (String × Nat) :=
  nodes.foldr (fun n acc => n.opset_req ∪ acc) ∅

/-! ## Theorems -/

/-- C1: building is memoized and idempotent — after a first query of the
build result on a `Graph`, a second query (with any builder, showing
that the builder is not re-invoked) returns the identical `BuildResult`
and leaves the `Graph` unchanged; in particular the instruction mapping
and initializer set are identical, and the `to_onnx` instruction
sequence computed from the cached graph is the one of the first
build. -/
theorem graph_build_memoized_idempotent
    (build build2 : Graph → BuildResult)
    (adapt : Nat → List NodeProto → (String → WithBot Nat) → Option (List NodeProto))
    (g : Graph) :
    Graph.get_build_result build2 (Graph.get_build_result build g).2
        = Graph.get_build_result build g
    ∧ (Graph.get_build_result build2 (Graph.get_build_result build g).2).1.nodes
        = (Graph.get_build_result build g).1.nodes
    ∧ (Graph.get_build_result build2 (Graph.get_build_result build g).2).1.initializers
        = (Graph.get_build_result build g).1.initializers
    ∧ Graph.node_protos adapt build2 (Graph.get_build_result build g).2
        = Graph.node_protos adapt build (Graph.get_build_result build g).2 := by
  cases h : g.build_result with
  | some r =>
      simp [Graph.get_build_result, Graph.node_protos, Graph.get_opsets,
        Graph.get_opset_req, h]
  | none =>
      simp [Graph.get_build_result, Graph.node_protos, Graph.get_opsets,
        Graph.get_opset_req, h]

/-- C9: the `with_*` transformations are copy-on-write — each returns a
new `Graph` in which only the corresponding field is replaced
(`with_opset` unioning with any existing extra requirements) while every
other field, the cached build result included, is carried over
unchanged; the original `Graph` value is immutable in this model, so its
own fields are untouched by construction. -/
theorem graph_with_transformations_frame
    (g : Graph) (n d : String) (args : List Var)
    (reqs : Finset (String × Nat)) :
    ((g.with_name n).results = g.results
      ∧ (g.with_name n).doc_string = g.doc_string
      ∧ (g.with_name n).arguments = g.arguments
      ∧ (g.with_name n).extra_opset_req = g.extra_opset_req
      ∧ (g.with_name n).build_result = g.build_result
      ∧ (g.with_name n).name = some n)
    ∧ ((g.with_doc d).results = g.results
      ∧ (g.with_doc d).name = g.name
      ∧ (g.with_doc d).arguments = g.arguments
      ∧ (g.with_doc d).extra_opset_req = g.extra_opset_req
      ∧ (g.with_doc d).build_result = g.build_result
      ∧ (g.with_doc d).doc_string = some d)
    ∧ ((g.with_arguments args).results = g.results
      ∧ (g.with_arguments args).name = g.name
      ∧ (g.with_arguments args).doc_string = g.doc_string
      ∧ (g.with_arguments args).extra_opset_req = g.extra_opset_req
      ∧ (g.with_arguments args).build_result = g.build_result
      ∧ (g.with_arguments args).arguments = some args)
    ∧ ((g.with_opset reqs).results = g.results
      ∧ (g.with_opset reqs).name = g.name
      ∧ (g.with_opset reqs).doc_string = g.doc_string
      ∧ (g.with_opset reqs).arguments = g.arguments
      ∧ (g.with_opset reqs).build_result = g.build_result
      ∧ (g.with_opset reqs).extra_opset_req
          = some (reqs ∪ g.extra_opset_req.getD ∅)) := by
  refine ⟨⟨rfl, rfl, rfl, rfl, rfl, rfl⟩, ⟨rfl, rfl, rfl, rfl, rfl, rfl⟩,
    ⟨rfl, rfl, rfl, rfl, rfl, rfl⟩, ⟨rfl, rfl, rfl, rfl, rfl, rfl⟩⟩

/-- C4: version adaptation is best-effort and non-fatal —
`get_adapted_nodes` is a total function (it cannot raise), it keeps
exactly the nodes of the build result (in order), and a node whose
adaptation yields no result keeps its original instructions. -/
theorem get_adapted_nodes_best_effort
    (adapt : Nat → List NodeProto → (String → WithBot Nat) → Option (List NodeProto))
    (opsets : String → WithBot Nat)
    (nodes : List (Nat × List NodeProto)) (n : Nat) (ps : List NodeProto)
    (h : (n, ps) ∈ nodes) :
    (get_adapted_nodes adapt opsets nodes).map Prod.fst = nodes.map Prod.fst
    ∧ (adapt n ps opsets = none →
        (n, ps) ∈ get_adapted_nodes adapt opsets nodes) := by
  constructor
  · simp [get_adapted_nodes, List.map_map, Function.comp_def]
  · intro hnone
    have := List.mem_map_of_mem
      (f := fun p : Nat × List NodeProto => (p.1, (adapt p.1 p.2 opsets).getD p.2)) h
    simpa [get_adapted_nodes, hnone] using this

/-- Witness for C4 at a concrete input: a one-node build result whose
adaptation fails keeps the node with its original instructions. -/
theorem get_adapted_nodes_best_effort_witness :
    (get_adapted_nodes (fun _ _ _ => none) (fun _ => ⊥) [(0, [])]).map Prod.fst
        = [(0, ([] : List NodeProto))].map Prod.fst
    ∧ ((fun (_ : Nat) (_ : List NodeProto) (_ : String → WithBot Nat) =>
          (none : Option (List NodeProto))) 0 [] (fun _ => ⊥) = none →
        (0, ([] : List NodeProto))
          ∈ get_adapted_nodes (fun _ _ _ => none) (fun _ => ⊥) [(0, [])]) :=
  get_adapted_nodes_best_effort (fun _ _ _ => none) (fun _ => ⊥) [(0, [])] 0 []
    (by simp)

/-- C5: `unsafe_cast` (embedded as `force_cast`) returns a new `Var`
whose propagated value is that of its input, whose type is exactly the
caller-supplied one, and which is an output of an inserted `Introduce`
node whose inputs are exactly `[x]`; `unsafe_reshape` (embedded as
`force_reshape`) does the same with the type
`Tensor(x.unwrap_tensor().dtype, shape)` whenever the input's type is a
tensor. -/
theorem force_cast_reshape_passthrough (x : Var) (typ : Ty)
    (shape : SimpleShape) (dt : String) (sh : SimpleShape) :
    (∃ y, force_cast x typ = some y
      ∧ y.value = x.value
      ∧ y.type = some typ
      ∧ y.producerOp = some "Introduce"
      ∧ y.producerInputs = [x])
    ∧ (x.type = some (.tensor dt sh) →
        ∃ z, force_reshape x shape = some z
          ∧ z.value = x.value
          ∧ z.type = some (Ty.tensor dt shape)
          ∧ z.producerOp = some "Introduce"
          ∧ z.producerInputs = [x]) := by
  constructor
  · refine ⟨Var.mk (some "Introduce") [x] 0 (some typ) x.value, ?_, rfl, rfl, rfl, rfl⟩
    cases x
    rfl
  · intro hx
    refine ⟨Var.mk (some "Introduce") [x] 0 (some (Ty.tensor dt shape)) x.value,
      ?_, rfl, rfl, rfl, rfl⟩
    cases x
    simp only [Var.type] at hx
    subst hx
    rfl

/-- Witness for C5 at a concrete input: a tensor-typed `Var` is passed
through `force_cast` and `force_reshape`. -/
theorem force_cast_reshape_passthrough_witness :
    (∃ y, force_cast (Var.mk none [] 0 (some (.tensor "float32" none)) none)
            Ty.unknownTy = some y
      ∧ y.value = (Var.mk none [] 0 (some (.tensor "float32" none)) none).value
      ∧ y.type = some Ty.unknownTy
      ∧ y.producerOp = some "Introduce"
      ∧ y.producerInputs = [Var.mk none [] 0 (some (.tensor "float32" none)) none])
    ∧ (∃ z, force_reshape (Var.mk none [] 0 (some (.tensor "float32" none)) none)
            (some [some (.fixed 2)]) = some z
      ∧ z.value = (Var.mk none [] 0 (some (.tensor "float32" none)) none).value
      ∧ z.type = some (Ty.tensor "float32" (some [some (.fixed 2)]))
      ∧ z.producerOp = some "Introduce"
      ∧ z.producerInputs
          = [Var.mk none [] 0 (some (.tensor "float32" none)) none]) := by
  have h := force_cast_reshape_passthrough
    (Var.mk none [] 0 (some (.tensor "float32" none)) none)
    Ty.unknownTy (some [some (.fixed 2)]) "float32" none
  exact ⟨h.1, h.2 rfl⟩

/-- C6 counterexample: passing `None` as the type to `arguments_dict`
does not fail — the call returns normally, producing an `Argument`
whose output `Var` is untyped. -/
theorem arguments_dict_none_accepted :
    arguments_dict [("x", (none : ArgInfo))]
        = [("x", Var.mk (some "Argument") [] 0 none none)]
    ∧ (Var.mk (some "Argument") [] 0 none none).type = none :=
  ⟨rfl, rfl⟩

/-- C6 amended: `arguments_dict` never raises on a `None`/`Type`/array
input — it produces one argument `Var` per keyword in order; `None`
yields an untyped `Argument` (as used by `function.py` for inputs of
unknown type), a `Type` yields an argument of that type, and an array
yields an argument typed like the array. -/
theorem arguments_dict_spec (kwargs : List (String × ArgInfo))
    (nm : String) (info : ArgInfo) (h : (nm, info) ∈ kwargs) :
    (arguments_dict kwargs).map Prod.fst = kwargs.map Prod.fst
    ∧ (info = none → (nm, mkArgumentVar none) ∈ arguments_dict kwargs)
    ∧ (∀ t, info = some (.inl t) →
        (nm, mkArgumentVar (some t)) ∈ arguments_dict kwargs)
    ∧ (∀ arr, info = some (.inr arr) →
        (nm, mkArgumentVar (some (tensorLikeArray arr))) ∈ arguments_dict kwargs) := by
  refine ⟨?_, ?_, ?_, ?_⟩
  · unfold arguments_dict
    rw [List.map_map]
    refine List.map_congr_left ?_
    rintro ⟨nm', info'⟩ _
    rcases info' with _ | info' <;> [skip; rcases info' with t | arr] <;> rfl
  · intro hnone
    subst hnone
    exact List.mem_map_of_mem (f := fun p : String × ArgInfo =>
      match p.2 with
      | none => (p.1, mkArgumentVar none)
      | some (.inl t) => (p.1, mkArgumentVar (some t))
      | some (.inr arr) => (p.1, mkArgumentVar (some (tensorLikeArray arr)))) h
  · intro t ht
    subst ht
    exact List.mem_map_of_mem (f := fun p : String × ArgInfo =>
      match p.2 with
      | none => (p.1, mkArgumentVar none)
      | some (.inl t) => (p.1, mkArgumentVar (some t))
      | some (.inr arr) => (p.1, mkArgumentVar (some (tensorLikeArray arr)))) h
  · intro arr harr
    subst harr
    exact List.mem_map_of_mem (f := fun p : String × ArgInfo =>
      match p.2 with
      | none => (p.1, mkArgumentVar none)
      | some (.inl t) => (p.1, mkArgumentVar (some t))
      | some (.inr arr) => (p.1, mkArgumentVar (some (tensorLikeArray arr)))) h

/-- Witness for C6 amended at a concrete input: a single `None`-typed
keyword. -/
theorem arguments_dict_spec_witness :
    (arguments_dict [("x", (none : ArgInfo))]).map Prod.fst
        = [("x", (none : ArgInfo))].map Prod.fst
    ∧ ((none : ArgInfo) = none →
        ("x", mkArgumentVar none) ∈ arguments_dict [("x", (none : ArgInfo))])
    ∧ (∀ t, (none : ArgInfo) = some (.inl t) →
        ("x", mkArgumentVar (some t)) ∈ arguments_dict [("x", (none : ArgInfo))])
    ∧ (∀ arr, (none : ArgInfo) = some (.inr arr) →
        ("x", mkArgumentVar (some (tensorLikeArray arr)))
          ∈ arguments_dict [("x", (none : ArgInfo))]) :=
  arguments_dict_spec [("x", none)] "x" none (by simp)

/-- C7: lowering an `Introduce` node with `n` inputs and `n` declared
variadic outputs yields exactly `n` identity instructions, the i-th
mapping the resolved name of the i-th input `Var` to the resolved name
of the i-th output `Var`. -/
theorem introduce_to_onnx_identities (scopeVar : Var → String)
    (nodeName docString : Option String) (inputs outputs : List Var)
    (h : inputs.length = outputs.length) :
    ∃ protos, introduceToOnnx scopeVar nodeName docString inputs outputs
        = some protos
      ∧ protos.length = inputs.length
      ∧ ∀ i, i < inputs.length →
          ∃ x y, inputs[i]? = some x ∧ outputs[i]? = some y
            ∧ protos[i]? = some
                { opType := "Identity"
                  inputNames := [scopeVar x]
                  outputNames := [scopeVar y]
                  nodeName := nodeName.map fun nm => nm ++ "_id" ++ toString i
                  docString := docString } := by
  refine ⟨_, by rw [introduceToOnnx, if_pos h], by simp, ?_⟩
  intro i hi
  have hi' : i < outputs.length := h ▸ hi
  refine ⟨inputs[i], outputs[i], by simp [hi], by simp [hi'], ?_⟩
  simp [List.getElem?_map, List.getElem?_range, hi, hi']

/-- Witness for C7 at a concrete input: one input and one output. -/
theorem introduce_to_onnx_identities_witness :
    ∃ protos,
      introduceToOnnx (fun _ => "v") (some "nd") none
          [Var.mk none [] 0 none none] [Var.mk none [] 1 none none]
        = some protos
      ∧ protos.length = [Var.mk none [] 0 none none].length
      ∧ ∀ i, i < [Var.mk none [] 0 none none].length →
          ∃ x y, [Var.mk none [] 0 none none][i]? = some x
            ∧ [Var.mk none [] 1 none none][i]? = some y
            ∧ protos[i]? = some
                { opType := "Identity"
                  inputNames := [(fun (_ : Var) => "v") x]
                  outputNames := [(fun (_ : Var) => "v") y]
                  nodeName := (some "nd").map fun nm => nm ++ "_id" ++ toString i
                  docString := none } :=
  introduce_to_onnx_identities (fun _ => "v") (some "nd") none
    [Var.mk none [] 0 none none] [Var.mk none [] 1 none none] rfl

/-- C8: functions compose recursively — a `Function`'s `opset_req`
includes every opset requirement of its internal constructor graph's
build, and `update_metadata` contributes those requirements to the
enclosing build's running union while appending the function itself
followed by every reusable function of its internal graph's build to
the enclosing build's function list. -/
theorem function_compose_recursively (f : FunctionNode) (st : BuildState) :
    f.funcBuildOpsetReq ⊆ f.opset_req
    ∧ (f.update_metadata st).opset_req = st.opset_req ∪ f.opset_req
    ∧ f.funcBuildOpsetReq ⊆ (f.update_metadata st).opset_req
    ∧ (f.update_metadata st).functions
        = st.functions ++ f :: f.funcBuildFunctions := by
  refine ⟨Finset.subset_union_right, rfl, ?_, rfl⟩
  exact Finset.Subset.trans Finset.subset_union_right Finset.subset_union_right

/-- C10: every `Introduce` node's `opset_req` is exactly `{("", 1)}`
(although `_InternalNode`s default to no requirement), so the aggregated
opset requirements of any build containing an `Introduce` node give the
default domain a version of at least 1 under the maximum-requested
policy. -/
theorem introduce_opset_req_floor (nodes : List InternalOp)
    (h : InternalOp.introduce ∈ nodes) :
    InternalOp.opset_req .introduce = {("", 1)}
    ∧ internalNodeOpsetReq = ∅
    ∧ ∃ v : Nat, 1 ≤ v
        ∧ max_opset_policy (buildOpsetReq nodes) "" = (v : WithBot Nat) := by
  refine ⟨rfl, rfl, ?_⟩
  have hmem : ("", 1) ∈ buildOpsetReq nodes := by
    induction nodes with
    | nil => cases h
    | cons hd tl ih =>
        rcases List.mem_cons.mp h with hh | ht
        · subst hh
          exact Finset.mem_union_left _ (by simp [InternalOp.opset_req,
            introduceOpsetReq])
        · exact Finset.mem_union_right _ (ih ht)
  have h1 : (1 : Nat) ∈
      ((buildOpsetReq nodes).filter fun p => p.1 = "").image Prod.snd := by
    exact Finset.mem_image.mpr ⟨("", 1), Finset.mem_filter.mpr ⟨hmem, rfl⟩, rfl⟩
  have hne : (((buildOpsetReq nodes).filter fun p => p.1 = "").image Prod.snd).max ≠ ⊥ := by
    rw [Ne, Finset.max_eq_bot]
    intro he
    rw [he] at h1
    exact absurd h1 (Finset.not_mem_empty 1)
  rcases hv : (((buildOpsetReq nodes).filter fun p => p.1 = "").image Prod.snd).max
    with _ | v
  · exact absurd hv hne
  · refine ⟨v, ?_, hv⟩
    have h2 := Finset.le_max h1
    rw [hv, WithBot.some_eq_coe] at h2
    exact_mod_cast h2

/-- Witness for C10 at a concrete input: a build containing exactly one
`Introduce` node. -/
theorem introduce_opset_req_floor_witness :
    InternalOp.opset_req .introduce = {("", 1)}
    ∧ internalNodeOpsetReq = ∅
    ∧ ∃ v : Nat, 1 ≤ v
        ∧ max_opset_policy (buildOpsetReq [InternalOp.introduce]) ""
            = (v : WithBot Nat) :=
  introduce_opset_req_floor [InternalOp.introduce] (by simp)

/-- Helper: what a successful `addFunctionProto` step guarantees — the
accumulator only grows, the added proto is bound to its identifier, and
uniqueness of identifiers is preserved. -/
theorem addFunctionProto_ok (acc acc' : List ((String × String) × FunctionProto))
    (p : FunctionProto) (h : addFunctionProto acc p = .ok acc') :
    (∀ e ∈ acc, e ∈ acc') ∧ (p.key, p) ∈ acc'
    ∧ ((acc.map Prod.fst).Nodup → (acc'.map Prod.fst).Nodup) := by
  unfold addFunctionProto at h
  rcases hf : acc.find? (fun e => e.1 = p.key) with _ | e
  · rw [hf] at h
    simp only [Except.ok.injEq] at h
    subst h
    refine ⟨fun e he => List.mem_append_left _ he, by simp, ?_⟩
    intro hn
    rw [List.map_append, List.nodup_append]
    refine ⟨hn, by simp, ?_⟩
    intro k hk hk'
    simp only [List.map_cons, List.map_nil, List.mem_singleton] at hk'
    subst hk'
    rcases List.mem_map.mp hk with ⟨e, he, hke⟩
    have := List.find?_eq_none.mp hf e he
    simp only [decide_eq_true_eq] at this
    exact this hke
  · rw [hf] at h
    by_cases hpe : p = e.2
    · simp only [hpe, ne_eq, not_true_eq_false, if_false, Except.ok.injEq] at h
      subst h
      refine ⟨fun e he => he, ?_, fun hn => hn⟩
      have he1 : e ∈ acc := List.mem_of_find?_eq_some hf
      have he2 := List.find?_some hf
      simp only [decide_eq_true_eq] at he2
      have hpk : (p.key, p) = e := by
        rw [← he2, hpe]
      rw [hpk]
      exact he1
    · simp only [ne_eq, hpe, not_false_eq_true, if_true] at h
      cases h

/-- Helper: what a successful run of the `function_protos` collection
loop guarantees — the accumulator only grows, identifier uniqueness is
preserved, and every collected proto ends up bound to its identifier. -/
theorem collectFunctionProtos_ok (fs : List (Option FunctionProto)) :
    ∀ acc m, collectFunctionProtos acc fs = .ok m →
      (∀ e ∈ acc, e ∈ m)
      ∧ ((acc.map Prod.fst).Nodup → (m.map Prod.fst).Nodup)
      ∧ (∀ p, some p ∈ fs → (p.key, p) ∈ m) := by
  induction fs with
  | nil =>
      intro acc m h
      simp only [collectFunctionProtos, Except.ok.injEq] at h
      subst h
      exact ⟨fun e he => he, fun hn => hn, fun p hp => absurd hp (by simp)⟩
  | cons hd tl ih =>
      intro acc m h
      cases hd with
      | none =>
          obtain ⟨h1, h2, h3⟩ := ih acc m (by simpa [collectFunctionProtos] using h)
          refine ⟨h1, h2, fun p hp => ?_⟩
          rcases List.mem_cons.mp hp with hh | ht
          · cases hh
          · exact h3 p ht
      | some q =>
          rcases ha : addFunctionProto acc q with e | acc'
          · rw [collectFunctionProtos, ha] at h
            cases h
          · rw [collectFunctionProtos, ha] at h
            obtain ⟨g1, g2, g3⟩ := addFunctionProto_ok acc acc' q ha
            obtain ⟨h1, h2, h3⟩ := ih acc' m h
            refine ⟨fun e he => h1 _ (g1 e he), fun hn => h2 (g3 hn), ?_⟩
            intro p hp
            rcases List.mem_cons.mp hp with hh | ht
            · rcases Option.some.injEq .. ▸ hh with rfl
              exact h1 _ g2
            · exact h3 p ht

/-- Helper: in an association list with no repeated keys, a key
determines its binding. -/
theorem assoc_nodup_keys_eq (l : List ((String × String) × FunctionProto))
    (hn : (l.map Prod.fst).Nodup) (k : String × String) (a b : FunctionProto)
    (ha : (k, a) ∈ l) (hb : (k, b) ∈ l) : a = b := by
  induction l with
  | nil => cases ha
  | cons hd tl ih =>
      rw [List.map_cons, List.nodup_cons] at hn
      rcases List.mem_cons.mp ha with ha' | ha' <;>
        rcases List.mem_cons.mp hb with hb' | hb'
      · rw [← ha'] at hb'
        exact (Prod.mk.injEq .. ▸ hb'.symm).2
      · exfalso
        apply hn.1
        have hk : hd.1 = k := by rw [← ha']
        rw [hk]
        exact List.mem_map.mpr ⟨(k, b), hb', rfl⟩
      · exfalso
        apply hn.1
        have hk : hd.1 = k := by rw [← hb']
        rw [hk]
        exact List.mem_map.mpr ⟨(k, a), ha', rfl⟩
      · exact ih hn.2 ha' hb'

/-- Helper: in an association list with no repeated keys, a key that is
bound at all is bound exactly once. -/
theorem assoc_nodup_filter_one (l : List ((String × String) × FunctionProto))
    (hn : (l.map Prod.fst).Nodup) (k : String × String) (a : FunctionProto)
    (ha : (k, a) ∈ l) : (l.filter fun e => e.1 = k).length = 1 := by
  induction l with
  | nil => cases ha
  | cons hd tl ih =>
      rw [List.map_cons, List.nodup_cons] at hn
      by_cases hk : hd.1 = k
      · rw [List.filter_cons_of_pos (by simp [hk])]
        have hnil : tl.filter (fun e => decide (e.1 = k)) = [] := by
          rw [List.filter_eq_nil_iff]
          intro e he
          simp only [decide_eq_true_eq]
          intro hek
          exact hn.1 (by rw [hk]; exact List.mem_map.mpr ⟨e, he, hek⟩)
        rw [hnil]
        rfl
      · rw [List.filter_cons_of_neg (by simp [hk])]
        rcases List.mem_cons.mp ha with hh | ht
        · exact absurd (by rw [← hh] : hd.1 = k) hk
        · exact ih hn.2 ht

/-- C2: at model serialization, for any two collected function protos
sharing the same operator identifier: if they differ, the collection
loop of `to_onnx_model` fails (the `RuntimeError`), and if the loop
succeeds, exactly one function definition for that identifier appears in
the output mapping. -/
theorem to_onnx_model_function_dedup (fs : List (Option FunctionProto))
    (p q : FunctionProto) (hp : some p ∈ fs) (hq : some q ∈ fs)
    (hkey : p.key = q.key) :
    (p ≠ q → ∀ m, collectFunctionProtos [] fs ≠ .ok m)
    ∧ (∀ m, collectFunctionProtos [] fs = .ok m →
        (m.filter fun e => e.1 = p.key).length = 1) := by
  constructor
  · intro hne m hok
    obtain ⟨_, hnodup, hmem⟩ := collectFunctionProtos_ok fs [] m hok
    have h1 := hmem p hp
    have h2 := hmem q hq
    rw [hkey] at h1
    exact hne (assoc_nodup_keys_eq m (hnodup (by simp)) q.key p q h1 h2)
  · intro m hok
    obtain ⟨_, hnodup, hmem⟩ := collectFunctionProtos_ok fs [] m hok
    exact assoc_nodup_filter_one m (hnodup (by simp)) p.key p (hmem p hp)

/-- Witness for C2 at a concrete input: the same function proto
collected twice merges into a single definition. -/
theorem to_onnx_model_function_dedup_witness :
    ((⟨"d", "f", []⟩ : FunctionProto) ≠ ⟨"d", "f", []⟩ →
      ∀ m, collectFunctionProtos []
          [some ⟨"d", "f", []⟩, some ⟨"d", "f", []⟩] ≠ .ok m)
    ∧ (∀ m, collectFunctionProtos []
          [some ⟨"d", "f", []⟩, some ⟨"d", "f", []⟩] = .ok m →
        (m.filter fun e => e.1 = FunctionProto.key ⟨"d", "f", []⟩).length = 1) :=
  to_onnx_model_function_dedup [some ⟨"d", "f", []⟩, some ⟨"d", "f", []⟩]
    ⟨"d", "f", []⟩ ⟨"d", "f", []⟩ (by simp) (by simp) rfl

/-- C3: `get_opsets` assigns each domain at most one version (it is a
mapping on domains); a domain has no version exactly when neither the
build nor the Graph's extra requirements mention it, and it has version
`v` exactly when `v` is the maximum over the union of the build's
per-node requirements and the extras given via `with_opset`. -/
theorem get_opsets_max_requested (build : Graph → BuildResult) (g : Graph)
    (d : String) :
    (Graph.get_opsets build g d = ⊥ ↔
      ∀ v : Nat, (d, v) ∉ Graph.get_opset_req build g)
    ∧ (∀ v : Nat, Graph.get_opsets build g d = (v : WithBot Nat) ↔
        ((d, v) ∈ Graph.get_opset_req build g
          ∧ ∀ w : Nat, (d, w) ∈ Graph.get_opset_req build g → w ≤ v)) := by
  constructor
  · rw [Graph.get_opsets, max_opset_policy, Finset.max_eq_bot,
      Finset.image_eq_empty, Finset.filter_eq_empty_iff]
    constructor
    · intro h v hv
      exact h hv rfl
    · intro h p hp hpd
      rcases p with ⟨pd, pv⟩
      dsimp at hpd
      subst hpd
      exact h pv hp
  · intro v
    constructor
    · intro h
      simp only [Graph.get_opsets, max_opset_policy] at h
      have hv := Finset.mem_of_max h
      rcases Finset.mem_image.mp hv with ⟨p, hpf, hpv⟩
      rcases Finset.mem_filter.mp hpf with ⟨hpr, hpd⟩
      have hpdv : p = (d, v) := by
        rcases p with ⟨pd, pv⟩
        dsimp at hpd hpv
        rw [hpd, hpv]
      constructor
      · rw [← hpdv]
        exact hpr
      · intro w hw
        have hwmem : w ∈ ((Graph.get_opset_req build g).filter
            fun p => p.1 = d).image Prod.snd :=
          Finset.mem_image.mpr ⟨(d, w), Finset.mem_filter.mpr ⟨hw, rfl⟩, rfl⟩
        have hle := Finset.le_max hwmem
        rw [h] at hle
        exact WithBot.coe_le_coe.mp hle
    · rintro ⟨hmem, hub⟩
      rw [Graph.get_opsets, max_opset_policy]
      have hvmem : v ∈ ((Graph.get_opset_req build g).filter
          fun p => p.1 = d).image Prod.snd :=
        Finset.mem_image.mpr ⟨(d, v), Finset.mem_filter.mpr ⟨hmem, rfl⟩, rfl⟩
      refine le_antisymm ?_ (Finset.le_max hvmem)
      refine Finset.max_le ?_
      intro b hb
      rcases Finset.mem_image.mp hb with ⟨p, hpf, hpv⟩
      rcases Finset.mem_filter.mp hpf with ⟨hpr, hpd⟩
      have : (d, b) ∈ Graph.get_opset_req build g := by
        rcases p with ⟨pd, pv⟩
        dsimp at hpd hpv
        rw [← hpd, ← hpv]
        exact hpr
      exact WithBot.coe_le_coe.mpr (hub b this)

end Spox
